import Mathlib

/-!
Shallow embedding of the RHT03 temperature/humidity sensor driver (`therm.c`).

The driver busy-polls a single digital line.  `next_bit` (therm.c:83-102)
waits for the line to go high (uncapped low wait), counts polling
iterations while the line stays high (8-bit counter with a post-increment
cap test at 255), classifies the count against `LONG_PULSE_LENGTH`, and
records the raw count into the global debug buffer `tries_b` at index
`try_count` (both 8-bit).  `read_therm` (therm.c:104-138) discards two
preamble pulses, then loops `counter` from 0 to `BIT_TRANSITIONS - 1`,
shifting each classified bit into `bits[counter >> 3]`, and finally packs
the result record.

Two levels of model:
* a trace level, where the line is a function `ℕ → Bool` from poll index
  to pin reading, used for the sampler's loops;
* a count level, where a transaction consumes the sequence of iteration
  counts `ℕ → ℕ` that successive `next_bit` calls would produce, used for
  the decode pipeline.

Machine integers are modelled as `ℕ` with explicit `% 256` / `% 65536`
at the points where the C code stores into `uint8_t` / `uint16_t`.
-/

namespace RHT03

/-- Threshold constant: `#define LONG_PULSE_LENGTH 28` (therm.c:34). -/
def LONG_PULSE_LENGTH : ℕ := 28

/-- Loop-bound constant: `#define BIT_TRANSITIONS 40 + 2` (therm.c:33).  Used as
`counter < BIT_TRANSITIONS` (therm.c:126), which parses as `counter < 42`. -/
def BIT_TRANSITIONS : ℕ := 40 + 2

/-- Size of `uint8_t tries_b[43]` (therm.c:37): the debug trace buffer has 43 slots,
valid indices `0 … 42`. -/
def TRIES_B_SIZE : ℕ := 43

/-- Bit classifier (therm.c:96): `*state = (tries > LONG_PULSE_LENGTH) ? 1 : 0;`. -/
def classify (tries : ℕ) : ℕ :=
  if tries > LONG_PULSE_LENGTH then 1 else 0

/-! ### Trace-level pulse sampler

`line : ℕ → Bool` gives the pin reading of the n-th `read_pin()` call.
`lowWait` models `while(read_pin() == 0) { }` (therm.c:87); it is
fuel-indexed because the C loop has no bound: `none` means the fuel ran
out before the line read high.  `highWaitAux` models the counting loop
(therm.c:90-94) including the 8-bit post-increment cap test
`if(tries++ == 255) break;`; it returns the final `tries` value and the
index of the next unread poll. -/

def lowWait : ℕ → (ℕ → Bool) → ℕ → Option ℕ
  | 0, _, _ => none
  | fuel + 1, line, pos => if line pos then some pos else lowWait fuel line (pos + 1)

def highWaitAux (line : ℕ → Bool) : ℕ → ℕ → ℕ → Option (ℕ × ℕ)
  | 0, _, _ => none
  | fuel + 1, pos, tries =>
    if line pos then
      if tries = 255 then some ((tries + 1) % 256, pos + 1)
      else highWaitAux line fuel (pos + 1) ((tries + 1) % 256)
    else some (tries, pos + 1)

/-- One `next_bit` call (therm.c:83-102) at the trace level: uncapped low
wait (fuel-indexed), then the capped high count starting one poll after the
first high reading, then classification.  Returns
`(classified bit, raw tries value, next poll index)`.  Fuel 256 always
suffices for the high loop (see `highWaitAux_isSome`). -/
def next_bit (line : ℕ → Bool) (fuel pos : ℕ) : Option (ℕ × ℕ × ℕ) :=
  match lowWait fuel line pos with
  | none => none
  | some p =>
    match highWaitAux line 256 (p + 1) 0 with
    | none => none
    | some (tries, p') => some (classify tries, tries, p')

/-! ### Count-level decode pipeline -/

/-- Result record `RHTresult` (therm.c:41-45).  The `checksum` field stores the validity
flag computed at therm.c:134 (1 = sum matched, 0 = mismatch). -/
structure RHTresult where
  temperature : ℕ
  humidity : ℕ
  checksum : ℕ
  deriving DecidableEq, Repr

/-- One iteration of the assembly loop body (therm.c:128-129):
`bucket = counter >> 3; bits[bucket] = (bits[bucket] << 1) | state;`
with the store truncated to `uint8_t`.  The bucket array is modelled as a
total map `ℕ → ℕ` so that the out-of-range index `5` is observable. -/
def writeBit (bits : ℕ → ℕ) (i b : ℕ) : ℕ → ℕ :=
  fun j => if j = i >>> 3 then ((bits (i >>> 3)) <<< 1 ||| b) % 256 else bits j

/-- The assembly loop (therm.c:126-130) over a list of already classified
bits, starting at loop counter `i`.  Also returns the list of bucket
indices written, in order. -/
def assembleAux : (ℕ → ℕ) → List ℕ → ℕ → ((ℕ → ℕ) × List ℕ)
  | bits, [], _ => (bits, [])
  | bits, b :: rest, i =>
    let r := assembleAux (writeBit bits i b) rest (i + 1)
    (r.1, (i >>> 3) :: r.2)

/-- Final bucket contents after running the assembly loop from the
all-zero `bits[5]` initialiser (therm.c:117) with loop counter from 0. -/
def assemble (l : List ℕ) : ℕ → ℕ := (assembleAux (fun _ => 0) l 0).1

/-- The bucket indices the assembly loop writes, in order. -/
def assembleTargets (l : List ℕ) : List ℕ := (assembleAux (fun _ => 0) l 0).2

/-- The iteration counts consumed by the data loop: one per loop pass,
`counts 0` and `counts 1` having been consumed by the preamble
(therm.c:122-123). -/
def countsList (counts : ℕ → ℕ) : List ℕ :=
  (List.range BIT_TRANSITIONS).map fun i => counts (2 + i)

/-- The classified data bits fed to the assembly loop. -/
def dataBits (counts : ℕ → ℕ) : List ℕ := (countsList counts).map classify

/-- The bucket contents at the end of one `read_therm` transaction. -/
def thermBits (counts : ℕ → ℕ) : ℕ → ℕ := assemble (dataBits counts)

/-- Transaction body `read_therm` (therm.c:104-138) at the count level: the result record
packed at therm.c:132-134.  `humidity`/`temperature` stores truncate to
`uint16_t`; the checksum comparison is done in `int` (no truncation of the
four-byte sum — the C operands are promoted). -/
def read_therm (counts : ℕ → ℕ) : RHTresult :=
  { humidity := ((thermBits counts 0 <<< 8) ||| thermBits counts 1) % 65536
    temperature := ((thermBits counts 2 <<< 8) ||| thermBits counts 3) % 65536
    checksum :=
      if thermBits counts 0 + thermBits counts 1 + thermBits counts 2 + thermBits counts 3
          = thermBits counts 4 then 1 else 0 }

/-! ### Debug state threading

`try_count` and `tries_b` (therm.c:37-38) are process-global: `next_bit`
stores the raw count at `tries_b[try_count]` and post-increments
`try_count` (therm.c:99-100); nothing ever resets them.  `tries_b` is
modelled as a total map so writes at any index are representable; `writes`
is the ghost list of indices written, in order. -/

structure DebugState where
  tryCount : ℕ
  triesB : ℕ → ℕ
  writes : List ℕ

/-- Debug store `tries_b[try_count] = tries; try_count++;` (therm.c:99-100), with the
8-bit wrap of `try_count`. -/
def debugRecord (tries : ℕ) (d : DebugState) : DebugState :=
  { tryCount := (d.tryCount + 1) % 256
    triesB := fun i => if i = d.tryCount then tries else d.triesB i
    writes := d.writes ++ [d.tryCount] }

/-- The data loop of `read_therm` with the debug state threaded through:
each pass performs one `next_bit` call (debug record of the raw count)
and one bucket write of the classified bit. -/
def dataLoop : List ℕ → ((ℕ → ℕ) × DebugState) → ℕ → ((ℕ → ℕ) × DebugState)
  | [], s, _ => s
  | c :: rest, s, i => dataLoop rest (writeBit s.1 i (classify c), debugRecord c s.2) (i + 1)

/-- One full `read_therm` transaction with the global debug state made
explicit: two preamble `next_bit` calls (therm.c:122-123) record their
counts but discard the bits, then the data loop runs. -/
def read_therm_debug (counts : ℕ → ℕ) (d : DebugState) : RHTresult × DebugState :=
  let d2 := debugRecord (counts 1) (debugRecord (counts 0) d)
  let s := dataLoop (countsList counts) ((fun _ => 0), d2) 0
  ({ humidity := ((s.1 0 <<< 8) ||| s.1 1) % 65536
     temperature := ((s.1 2 <<< 8) ||| s.1 3) % 65536
     checksum := if s.1 0 + s.1 1 + s.1 2 + s.1 3 = s.1 4 then 1 else 0 }, s.2)

/-- The debug state at power-up: `uint8_t try_count = 0`, zeroed BSS buffer. -/
def initDebug : DebugState := ⟨0, fun _ => 0, []⟩

/-- Big-endian value of a bit list: first element is the most significant. -/
def beInt (l : List ℕ) : ℕ := l.foldl (fun a b => 2 * a + b) 0

/-- Concrete 40-bit frame (bytes 0x01 0x90 0x00 0xC8 0x59) used as the
witness input for the frame-assembly theorem. -/
def c4bits : List ℕ :=
  [0,0,0,0,0,0,0,1, 1,0,0,1,0,0,0,0, 0,0,0,0,0,0,0,0, 1,1,0,0,1,0,0,0, 0,1,0,1,1,0,0,1]

/-- Data bits (42 of them) encoding bytes 0x01 0x90 0x00 0xC8 0x59 followed by
two filler bits for the loop passes 40 and 41. -/
def c2bits : List ℕ :=
  [0,0,0,0,0,0,0,1, 1,0,0,1,0,0,0,0, 0,0,0,0,0,0,0,0, 1,1,0,0,1,0,0,0, 0,1,0,1,1,0,0,1,
   0,0]

/-- A pulse-count input stream realising the bit pattern `c2bits`: a count
of 29 (above threshold) for a 1 bit, 0 for a 0 bit; preamble counts 0. -/
def c2counts : ℕ → ℕ := fun i => if i < 2 then 0 else 29 * c2bits.getD (i - 2) 0

/-- Data bits (42 of them) encoding bytes 0x02 0x8C 0x01 0x01 0x8F (the spec's
checksum-mismatch scenario) followed by two filler bits. -/
def c7bits : List ℕ :=
  [0,0,0,0,0,0,1,0, 1,0,0,0,1,1,0,0, 0,0,0,0,0,0,0,1, 0,0,0,0,0,0,0,1, 1,0,0,0,1,1,1,1,
   0,0]

/-- Pulse-count input stream realising `c7bits`. -/
def c7counts : ℕ → ℕ := fun i => if i < 2 then 0 else 29 * c7bits.getD (i - 2) 0

end RHT03

namespace RHT03

/-! ### Arithmetic bridge lemmas -/

theorem lor_two_pow_mul_add : ∀ k a b : ℕ, b < 2 ^ k → 2 ^ k * a ||| b = 2 ^ k * a + b := by
  intro k
  induction k with
  | zero =>
    intro a b hb
    have hb0 : b = 0 := by omega
    simp [hb0]
  | succ k ih =>
    intro a b hb
    have h2 : 2 ^ (k + 1) = 2 * 2 ^ k := by rw [pow_succ]; ring
    have hb2 : b / 2 < 2 ^ k := by omega
    have e1 : 2 ^ (k + 1) * a = Nat.bit false (2 ^ k * a) := by
      simp [Nat.bit, h2]; ring
    have e2 : Nat.bit (Nat.bodd b) (b / 2) = b := by
      rw [Nat.bit_val]
      have h3 := Nat.bodd_add_div2 b
      rw [Nat.div2_val] at h3
      omega
    calc 2 ^ (k + 1) * a ||| b
        = Nat.bit false (2 ^ k * a) ||| Nat.bit (Nat.bodd b) (b / 2) := by rw [e1, e2]
      _ = Nat.bit (false || Nat.bodd b) (2 ^ k * a ||| b / 2) := Nat.lor_bit _ _ _ _
      _ = Nat.bit (Nat.bodd b) (2 ^ k * a + b / 2) := by rw [Bool.false_or, ih a (b / 2) hb2]
      _ = 2 ^ (k + 1) * a + b := by
          rw [Nat.bit_val]
          have h3 := Nat.bodd_add_div2 b
          rw [Nat.div2_val] at h3
          have h4 : 2 ^ (k + 1) * a = 2 * (2 ^ k * a) := by rw [h2]; ring
          omega

theorem shiftLeft_lor_eq (a b k : ℕ) (hb : b < 2 ^ k) : a <<< k ||| b = 2 ^ k * a + b := by
  rw [Nat.shiftLeft_eq, mul_comm]
  exact lor_two_pow_mul_add k a b hb

theorem shiftRight3_eq (n : ℕ) : n >>> 3 = n / 8 := by
  rw [Nat.shiftRight_eq_div_pow]

/-! ### Assembly loop lemmas -/

theorem writeBit_self (bits : ℕ → ℕ) (i b : ℕ) (hb : b ≤ 1) :
    writeBit bits i b (i >>> 3) = (2 * bits (i >>> 3) + b) % 256 := by
  have h : (bits (i >>> 3)) <<< 1 ||| b = 2 * bits (i >>> 3) + b := by
    have := shiftLeft_lor_eq (bits (i >>> 3)) b 1 (by omega)
    simpa using this
  simp [writeBit, h]

theorem writeBit_other (bits : ℕ → ℕ) (i b j : ℕ) (hj : j ≠ i >>> 3) :
    writeBit bits i b j = bits j := by
  simp [writeBit, hj]

theorem assembleAux_targets :
    ∀ (l : List ℕ) (bits : ℕ → ℕ) (s : ℕ),
      (assembleAux bits l s).2 = (List.range l.length).map fun k => (s + k) >>> 3 := by
  intro l
  induction l with
  | nil => intro bits s; simp [assembleAux]
  | cons b rest ih =>
    intro bits s
    have hstep : (assembleAux bits (b :: rest) s).2
        = (s >>> 3) :: (assembleAux (writeBit bits s b) rest (s + 1)).2 := rfl
    rw [hstep, ih, List.length_cons, List.range_succ_eq_map, List.map_cons, List.map_map]
    refine congrArg₂ List.cons (by rw [Nat.add_zero]) (List.map_congr_left fun k _ => ?_)
    show (s + 1 + k) >>> 3 = (s + (k + 1)) >>> 3
    congr 1
    omega

theorem assembleAux_append :
    ∀ (l₁ l₂ : List ℕ) (bits : ℕ → ℕ) (s : ℕ),
      (assembleAux bits (l₁ ++ l₂) s).1
        = (assembleAux (assembleAux bits l₁ s).1 l₂ (s + l₁.length)).1 := by
  intro l₁
  induction l₁ with
  | nil => intro l₂ bits s; simp [assembleAux]
  | cons b rest ih =>
    intro l₂ bits s
    have hstep : (assembleAux bits ((b :: rest) ++ l₂) s).1
        = (assembleAux (writeBit bits s b) (rest ++ l₂) (s + 1)).1 := rfl
    have hstep2 : (assembleAux bits (b :: rest) s).1
        = (assembleAux (writeBit bits s b) rest (s + 1)).1 := rfl
    rw [hstep, ih, hstep2, List.length_cons,
      show s + (rest.length + 1) = s + 1 + rest.length from by omega]

theorem assembleAux_untouched :
    ∀ (l : List ℕ) (bits : ℕ → ℕ) (s j : ℕ),
      (∀ k, k < l.length → (s + k) >>> 3 ≠ j) → (assembleAux bits l s).1 j = bits j := by
  intro l
  induction l with
  | nil => intro bits s j _; rfl
  | cons b rest ih =>
    intro bits s j h
    have h0 : j ≠ s >>> 3 := by
      have := h 0 (by simp)
      simpa [eq_comm] using this
    calc (assembleAux bits (b :: rest) s).1 j
        = (assembleAux (writeBit bits s b) rest (s + 1)).1 j := rfl
      _ = writeBit bits s b j := ih _ _ _ (by
          intro k hk
          have := h (k + 1) (by simpa using Nat.succ_lt_succ hk)
          simpa [Nat.add_assoc, Nat.add_comm 1 k] using this)
      _ = bits j := writeBit_other bits s b j h0

theorem foldl_mod_congr :
    ∀ (l : List ℕ) (a a' : ℕ), a % 256 = a' % 256 →
      (l.foldl (fun x b => 2 * x + b) a) % 256 = (l.foldl (fun x b => 2 * x + b) a') % 256 := by
  intro l
  induction l with
  | nil => intro a a' h; exact h
  | cons b rest ih =>
    intro a a' h
    simp only [List.foldl_cons]
    exact ih (2 * a + b) (2 * a' + b) (by omega)

theorem assembleAux_run :
    ∀ (l : List ℕ) (bits : ℕ → ℕ) (s j : ℕ), bits j < 256 →
      (∀ k, k < l.length → (s + k) >>> 3 = j) → (∀ b ∈ l, b ≤ 1) →
      (assembleAux bits l s).1 j = (l.foldl (fun a b => 2 * a + b) (bits j)) % 256 := by
  intro l
  induction l with
  | nil =>
    intro bits s j hlt _ _
    simp [assembleAux, Nat.mod_eq_of_lt hlt]
  | cons b rest ih =>
    intro bits s j hlt htgt hb
    have h0 : s >>> 3 = j := by simpa using htgt 0 (by simp)
    have hb0 : b ≤ 1 := hb b (by simp)
    have hw : writeBit bits s b j = (2 * bits j + b) % 256 := by
      have hws := writeBit_self bits s b hb0
      rw [h0] at hws
      exact hws
    calc (assembleAux bits (b :: rest) s).1 j
        = (assembleAux (writeBit bits s b) rest (s + 1)).1 j := rfl
      _ = (rest.foldl (fun a b => 2 * a + b) (writeBit bits s b j)) % 256 := by
          refine ih _ _ _ ?_ ?_ (fun x hx => hb x (by simp [hx]))
          · rw [hw]; exact Nat.mod_lt _ (by omega)
          · intro k hk
            have := htgt (k + 1) (by simpa using Nat.succ_lt_succ hk)
            simpa [Nat.add_assoc, Nat.add_comm 1 k] using this
      _ = (rest.foldl (fun a b => 2 * a + b) (2 * bits j + b)) % 256 := by
          rw [hw]; exact foldl_mod_congr rest _ _ (by omega)
      _ = ((b :: rest).foldl (fun a b => 2 * a + b) (bits j)) % 256 := by
          simp

theorem foldl_bits_lt :
    ∀ (l : List ℕ) (a : ℕ), (∀ b ∈ l, b ≤ 1) →
      l.foldl (fun x b => 2 * x + b) a < 2 ^ l.length * (a + 1) := by
  intro l
  induction l with
  | nil => intro a _; simpa using Nat.lt_succ_self a
  | cons b rest ih =>
    intro a hb
    have hb0 : b ≤ 1 := hb b (by simp)
    calc (b :: rest).foldl (fun x b => 2 * x + b) a
        = rest.foldl (fun x b => 2 * x + b) (2 * a + b) := by simp
      _ < 2 ^ rest.length * (2 * a + b + 1) := ih _ (fun x hx => hb x (by simp [hx]))
      _ ≤ 2 ^ rest.length * (2 * (a + 1)) := Nat.mul_le_mul_left _ (by omega)
      _ = 2 ^ (rest.length + 1) * (a + 1) := by rw [pow_succ]; ring
      _ = 2 ^ (b :: rest).length * (a + 1) := by simp

theorem assembleAux_lt :
    ∀ (l : List ℕ) (bits : ℕ → ℕ) (s j : ℕ), bits j < 256 →
      (assembleAux bits l s).1 j < 256 := by
  intro l
  induction l with
  | nil => intro bits s j h; exact h
  | cons b rest ih =>
    intro bits s j h
    refine ih (writeBit bits s b) (s + 1) j ?_
    by_cases hj : j = s >>> 3
    · subst hj; simp only [writeBit, if_pos rfl]; exact Nat.mod_lt _ (by omega)
    · rw [writeBit_other bits s b j hj]; exact h

theorem thermBits_lt (counts : ℕ → ℕ) (j : ℕ) : thermBits counts j < 256 :=
  assembleAux_lt _ _ _ _ (by omega)

/-- Core of the frame-assembly correctness: with at least `8 * (j + 1)` bits
supplied, bucket `j` ends up holding the big-endian value of bits
`8 * j … 8 * j + 7`. -/
theorem assemble_bucket (l : List ℕ) (hb : ∀ b ∈ l, b ≤ 1) (j : ℕ)
    (hj : 8 * (j + 1) ≤ l.length) :
    assemble l j = beInt ((l.drop (8 * j)).take 8) := by
  have hj8 : 8 * j ≤ l.length := by omega
  have hsplit : l = l.take (8 * j) ++ ((l.drop (8 * j)).take 8 ++ (l.drop (8 * j)).drop 8) := by
    rw [List.take_append_drop, List.take_append_drop]
  have hlen1 : (l.take (8 * j)).length = 8 * j := by
    rw [List.length_take]; omega
  have hlenmid : ((l.drop (8 * j)).take 8).length = 8 := by
    rw [List.length_take, List.length_drop]; omega
  have hmem : ∀ b ∈ (l.drop (8 * j)).take 8, b ≤ 1 := by
    intro b hbmem
    exact hb b (List.mem_of_mem_drop (List.mem_of_mem_take hbmem))
  have ht1 : (assembleAux (fun _ => 0) (l.take (8 * j)) 0).1 j = 0 := by
    refine assembleAux_untouched _ _ _ _ ?_
    intro k hk
    rw [hlen1] at hk
    rw [shiftRight3_eq]
    omega
  calc assemble l j
      = (assembleAux (fun _ => 0) l 0).1 j := rfl
    _ = (assembleAux
          (assembleAux (fun _ => 0) (l.take (8 * j)) 0).1
          ((l.drop (8 * j)).take 8 ++ (l.drop (8 * j)).drop 8) (0 + 8 * j)).1 j := by
        conv_lhs => rw [hsplit]
        rw [assembleAux_append, hlen1]
    _ = (assembleAux
          (assembleAux (assembleAux (fun _ => 0) (l.take (8 * j)) 0).1
            ((l.drop (8 * j)).take 8) (0 + 8 * j)).1
          ((l.drop (8 * j)).drop 8) (0 + 8 * j + 8)).1 j := by
        rw [assembleAux_append, hlenmid]
    _ = (assembleAux (assembleAux (fun _ => 0) (l.take (8 * j)) 0).1
          ((l.drop (8 * j)).take 8) (0 + 8 * j)).1 j := by
        refine assembleAux_untouched _ _ _ _ ?_
        intro k _
        rw [shiftRight3_eq]
        omega
    _ = (((l.drop (8 * j)).take 8).foldl (fun a b => 2 * a + b)
          ((assembleAux (fun _ => 0) (l.take (8 * j)) 0).1 j)) % 256 := by
        refine assembleAux_run _ _ _ _ ?_ ?_ hmem
        · rw [ht1]
          omega
        · intro k hk
          rw [hlenmid] at hk
          rw [shiftRight3_eq]
          omega
    _ = (((l.drop (8 * j)).take 8).foldl (fun a b => 2 * a + b) 0) % 256 := by
        rw [ht1]
    _ = beInt ((l.drop (8 * j)).take 8) := by
        refine Nat.mod_eq_of_lt ?_
        have hbd := foldl_bits_lt ((l.drop (8 * j)).take 8) 0 hmem
        rw [hlenmid] at hbd
        simpa using hbd

/-- C4: For any sequence of 40 bits, the frame assembler places bit `i`
(0-based) into bucket `i / 8` (the write targets of the loop are exactly
`i / 8` for `i = 0 … 39`), each bucket accumulating via
`bucket = (bucket << 1) | bit` in arrival order, so each completed bucket
equals the big-endian 8-bit integer formed by bits
`8 * (i / 8) … 8 * (i / 8) + 7` with the first-arriving bit as most
significant. -/
theorem assemble_big_endian (l : List ℕ) (hlen : l.length = 40) (hb : ∀ b ∈ l, b ≤ 1) :
    assembleTargets l = (List.range 40).map (fun i => i / 8) ∧
    ∀ j, j < 5 → assemble l j = beInt ((l.drop (8 * j)).take 8) := by
  constructor
  · show (assembleAux (fun _ => 0) l 0).2 = _
    rw [assembleAux_targets, hlen]
    exact List.map_congr_left fun k _ => by rw [Nat.zero_add, shiftRight3_eq]
  · intro j hj
    exact assemble_bucket l hb j (by omega)

theorem assemble_big_endian_witness :
    (c4bits.length = 40 ∧ ∀ b ∈ c4bits, b ≤ 1) ∧
    (assembleTargets c4bits = (List.range 40).map (fun i => i / 8) ∧
      ∀ j, j < 5 → assemble c4bits j = beInt ((c4bits.drop (8 * j)).take 8)) :=
  ⟨⟨by decide, by decide⟩, assemble_big_endian c4bits (by decide) (by decide)⟩

/-- C6: For every completed transaction, the result's humidity field equals
`bucket0 << 8 | bucket1` and the temperature field equals
`bucket2 << 8 | bucket3`, where `bucket0 … bucket3` are the first four
assembled byte buckets (equivalently, `256 * b0 + b1` and `256 * b2 + b3`;
the `uint16_t` store truncation at therm.c:132-133 never discards bits). -/
theorem read_therm_field_packing (counts : ℕ → ℕ) :
    (read_therm counts).humidity = thermBits counts 0 <<< 8 ||| thermBits counts 1 ∧
    (read_therm counts).humidity = 256 * thermBits counts 0 + thermBits counts 1 ∧
    (read_therm counts).temperature = thermBits counts 2 <<< 8 ||| thermBits counts 3 ∧
    (read_therm counts).temperature = 256 * thermBits counts 2 + thermBits counts 3 := by
  have h0 := thermBits_lt counts 0
  have h1 := thermBits_lt counts 1
  have h2 := thermBits_lt counts 2
  have h3 := thermBits_lt counts 3
  have h28 : (2 : ℕ) ^ 8 = 256 := by norm_num
  have e01 : thermBits counts 0 <<< 8 ||| thermBits counts 1
      = 256 * thermBits counts 0 + thermBits counts 1 := by
    have he := shiftLeft_lor_eq (thermBits counts 0) (thermBits counts 1) 8 (by rw [h28]; omega)
    rw [h28] at he
    exact he
  have e23 : thermBits counts 2 <<< 8 ||| thermBits counts 3
      = 256 * thermBits counts 2 + thermBits counts 3 := by
    have he := shiftLeft_lor_eq (thermBits counts 2) (thermBits counts 3) 8 (by rw [h28]; omega)
    rw [h28] at he
    exact he
  have hh : ((thermBits counts 0 <<< 8) ||| thermBits counts 1) % 65536
      = 256 * thermBits counts 0 + thermBits counts 1 := by
    rw [e01]
    exact Nat.mod_eq_of_lt (by omega)
  have ht : ((thermBits counts 2 <<< 8) ||| thermBits counts 3) % 65536
      = 256 * thermBits counts 2 + thermBits counts 3 := by
    rw [e23]
    exact Nat.mod_eq_of_lt (by omega)
  refine ⟨?_, ?_, ?_, ?_⟩
  · show ((thermBits counts 0 <<< 8) ||| thermBits counts 1) % 65536 = _
    rw [hh, e01]
  · show ((thermBits counts 0 <<< 8) ||| thermBits counts 1) % 65536 = _
    rw [hh]
  · show ((thermBits counts 2 <<< 8) ||| thermBits counts 3) % 65536 = _
    rw [ht, e23]
  · show ((thermBits counts 2 <<< 8) ||| thermBits counts 3) % 65536 = _
    rw [ht]

/-- C5: For every PulseSample count, the classifier returns 1 for counts
strictly above `LONG_PULSE_LENGTH` (28) and 0 otherwise; in particular 28
classifies as 0, 29 as 1, and no output other than 0 or 1 is possible. -/
theorem classify_strict_threshold :
    (∀ count : ℕ, (classify count = 1 ↔ LONG_PULSE_LENGTH < count) ∧
      (classify count = 0 ↔ count ≤ LONG_PULSE_LENGTH) ∧
      (classify count = 0 ∨ classify count = 1)) ∧
    classify LONG_PULSE_LENGTH = 0 ∧ classify (LONG_PULSE_LENGTH + 1) = 1 := by
  refine ⟨fun count => ⟨?_, ?_, ?_⟩, by decide, by decide⟩ <;>
    simp [classify, Nat.lt_iff_add_one_le] <;> omega

/-! ### Debug-state lemmas -/

theorem countsList_length (counts : ℕ → ℕ) : (countsList counts).length = 42 := by
  simp [countsList, BIT_TRANSITIONS]

theorem dataBits_length (counts : ℕ → ℕ) : (dataBits counts).length = 42 := by
  simp [dataBits, countsList, BIT_TRANSITIONS]

theorem dataLoop_fst :
    ∀ (cs : List ℕ) (bits : ℕ → ℕ) (d : DebugState) (i : ℕ),
      (dataLoop cs (bits, d) i).1 = (assembleAux bits (cs.map classify) i).1 := by
  intro cs
  induction cs with
  | nil => intro bits d i; rfl
  | cons c rest ih =>
    intro bits d i
    exact ih (writeBit bits i (classify c)) (debugRecord c d) (i + 1)

theorem dataLoop_writes_length :
    ∀ (cs : List ℕ) (bits : ℕ → ℕ) (d : DebugState) (i : ℕ),
      (dataLoop cs (bits, d) i).2.writes.length = d.writes.length + cs.length := by
  intro cs
  induction cs with
  | nil => intro bits d i; simp [dataLoop]
  | cons c rest ih =>
    intro bits d i
    have hstep := ih (writeBit bits i (classify c)) (debugRecord c d) (i + 1)
    show (dataLoop rest (writeBit bits i (classify c), debugRecord c d) (i + 1)).2.writes.length
        = d.writes.length + (c :: rest).length
    rw [hstep]
    simp [debugRecord]
    omega

theorem dataLoop_tryCount :
    ∀ (cs : List ℕ) (bits : ℕ → ℕ) (d : DebugState) (i : ℕ), d.tryCount < 256 →
      (dataLoop cs (bits, d) i).2.tryCount = (d.tryCount + cs.length) % 256 := by
  intro cs
  induction cs with
  | nil =>
    intro bits d i ht
    show d.tryCount = (d.tryCount + 0) % 256
    omega
  | cons c rest ih =>
    intro bits d i ht
    have hstep := ih (writeBit bits i (classify c)) (debugRecord c d) (i + 1)
      (by simp [debugRecord]; omega)
    show (dataLoop rest (writeBit bits i (classify c), debugRecord c d) (i + 1)).2.tryCount
        = (d.tryCount + (c :: rest).length) % 256
    rw [hstep]
    simp only [debugRecord, List.length_cons]
    omega

theorem dataLoop_writes :
    ∀ (cs : List ℕ) (bits : ℕ → ℕ) (d : DebugState) (i : ℕ), d.tryCount < 256 →
      (dataLoop cs (bits, d) i).2.writes
        = d.writes ++ (List.range cs.length).map (fun k => (d.tryCount + k) % 256) := by
  intro cs
  induction cs with
  | nil => intro bits d i _; simp [dataLoop]
  | cons c rest ih =>
    intro bits d i ht
    have hstep := ih (writeBit bits i (classify c)) (debugRecord c d) (i + 1)
      (by simp [debugRecord]; omega)
    show (dataLoop rest (writeBit bits i (classify c), debugRecord c d) (i + 1)).2.writes
        = d.writes ++ (List.range (c :: rest).length).map (fun k => (d.tryCount + k) % 256)
    rw [hstep]
    simp only [debugRecord, List.length_cons, List.range_succ_eq_map, List.map_cons,
      List.map_map, List.append_assoc, List.singleton_append]
    refine congrArg _ (congrArg₂ List.cons (by omega) (List.map_congr_left fun k _ => ?_))
    show ((d.tryCount + 1) % 256 + k) % 256 = (d.tryCount + (k + 1)) % 256
    omega

theorem read_therm_debug_snd (counts : ℕ → ℕ) (d : DebugState) :
    (read_therm_debug counts d).2
      = (dataLoop (countsList counts)
          ((fun _ => 0), debugRecord (counts 1) (debugRecord (counts 0) d)) 0).2 := rfl

theorem read_therm_debug_fst (counts : ℕ → ℕ) (d : DebugState) :
    (read_therm_debug counts d).1 = read_therm counts := by
  have h := dataLoop_fst (countsList counts) (fun _ => 0)
    (debugRecord (counts 1) (debugRecord (counts 0) d)) 0
  simp only [read_therm_debug, read_therm]
  rw [h]
  rfl

/-- C8: the decode pipeline is deterministic in its synthetic pulse-count
inputs: running a second transaction on the same counts, starting from the
debug state the first run left behind (or from any debug state at all),
yields the identical result record. -/
theorem pipeline_deterministic (counts : ℕ → ℕ) (d : DebugState) :
    (read_therm_debug counts ((read_therm_debug counts d).2)).1
        = (read_therm_debug counts d).1 ∧
    (∀ d' : DebugState, (read_therm_debug counts d').1 = (read_therm_debug counts d).1) ∧
    (read_therm_debug counts d).1 = read_therm counts := by
  refine ⟨?_, ?_, read_therm_debug_fst counts d⟩
  · rw [read_therm_debug_fst, read_therm_debug_fst]
  · intro d'
    rw [read_therm_debug_fst, read_therm_debug_fst]

/-- C1 is violated by the code: each transaction performs 44 `next_bit`
calls (2 preamble + 42 loop passes, because the loop bound
`BIT_TRANSITIONS = 40 + 2` is applied after the preamble was already
consumed), classifies 42 data bits rather than 40, and the loop passes 40
and 41 write to bucket index 5 — outside the five-element `bits` array
(valid indices 0…4). -/
theorem transaction_sample_count (counts : ℕ → ℕ) (d : DebugState) :
    (read_therm_debug counts d).2.writes.length = d.writes.length + 44 ∧
    (dataBits counts).length = 42 ∧
    assembleTargets (dataBits counts) = (List.range 42).map (fun i => i / 8) ∧
    5 ∈ assembleTargets (dataBits counts) := by
  have htg : assembleTargets (dataBits counts) = (List.range 42).map (fun i => i / 8) := by
    show (assembleAux (fun _ => 0) (dataBits counts) 0).2 = _
    rw [assembleAux_targets, dataBits_length]
    exact List.map_congr_left fun k _ => by rw [Nat.zero_add, shiftRight3_eq]
  refine ⟨?_, dataBits_length counts, htg, ?_⟩
  · rw [read_therm_debug_snd, dataLoop_writes_length, countsList_length]
    simp [debugRecord]
  · rw [htg]
    exact List.mem_map.mpr ⟨40, List.mem_range.mpr (by omega), by norm_num⟩

/-- C10: each transaction records one debug sample per pulse-sampler call —
44 of them, exceeding the 43-slot `tries_b` buffer — via the global 8-bit
index `try_count`, which is never reset between transactions and therefore
keeps growing modulo 256; already during the first transaction (fresh
debug state) the out-of-bounds index 43 is written. -/
theorem debug_trace_overflow (counts : ℕ → ℕ) (d : DebugState) (ht : d.tryCount < 256) :
    (read_therm_debug counts d).2.writes.length = d.writes.length + 44 ∧
    TRIES_B_SIZE < 44 ∧
    (read_therm_debug counts d).2.tryCount = (d.tryCount + 44) % 256 ∧
    TRIES_B_SIZE ∈ (read_therm_debug counts initDebug).2.writes := by
  refine ⟨?_, by decide, ?_, ?_⟩
  · rw [read_therm_debug_snd, dataLoop_writes_length, countsList_length]
    simp [debugRecord]
  · rw [read_therm_debug_snd,
      dataLoop_tryCount _ _ _ _ (by simp [debugRecord]; omega), countsList_length]
    simp only [debugRecord]
    omega
  · rw [read_therm_debug_snd, dataLoop_writes _ _ _ _ (by simp [debugRecord, initDebug]),
      countsList_length]
    refine List.mem_append_right _ (List.mem_map.mpr ⟨41, List.mem_range.mpr (by omega), ?_⟩)
    simp [debugRecord, initDebug, TRIES_B_SIZE]

/-! ### Trace-level sampler lemmas -/

theorem highWaitAux_isSome (line : ℕ → Bool) :
    ∀ (f t : ℕ), t ≤ 255 → 256 ≤ t + f → ∀ pos, (highWaitAux line f pos t).isSome := by
  intro f
  induction f with
  | zero =>
    intro t h1 h2 pos
    exact absurd h2 (by omega)
  | succ f ih =>
    intro t h1 h2 pos
    simp only [highWaitAux]
    by_cases hl : line pos
    · rw [if_pos hl]
      by_cases ht : t = 255
      · rw [if_pos ht]
        rfl
      · rw [if_neg ht]
        exact ih ((t + 1) % 256) (by omega) (by omega) (pos + 1)
    · rw [if_neg hl]
      rfl

theorem highWait_cap :
    ∀ (f t : ℕ) (line : ℕ → Bool) (pos : ℕ), t + f = 256 → t ≤ 255 →
      (∀ i, i < pos + f → pos ≤ i → line i = true) →
      highWaitAux line f pos t = some (0, pos + f) := by
  intro f
  induction f with
  | zero =>
    intro t line pos hf ht _
    exact absurd hf (by omega)
  | succ f ih =>
    intro t line pos hf ht hline
    have hl : line pos = true := hline pos (by omega) (Nat.le_refl pos)
    simp only [highWaitAux]
    rw [if_pos hl]
    by_cases h255 : t = 255
    · have hf0 : f = 0 := by omega
      subst hf0
      rw [if_pos h255, h255]
    · rw [if_neg h255]
      have hmod : (t + 1) % 256 = t + 1 := by omega
      rw [hmod]
      have hrec := ih (t + 1) line (pos + 1) (by omega) (by omega)
        (fun i hi hpi => hline i (by omega) (by omega))
      rw [hrec, show pos + 1 + f = pos + (f + 1) from by omega]

theorem lowWait_some (line : ℕ → Bool) :
    ∀ (fuel pos p : ℕ), lowWait fuel line pos = some p → pos ≤ p ∧ line p = true := by
  intro fuel
  induction fuel with
  | zero => intro pos p h; exact absurd h (by simp [lowWait])
  | succ fuel ih =>
    intro pos p h
    simp only [lowWait] at h
    by_cases hl : line pos
    · rw [if_pos hl] at h
      obtain rfl : pos = p := by simpa using h
      exact ⟨Nat.le_refl pos, hl⟩
    · rw [if_neg hl] at h
      obtain ⟨h1, h2⟩ := ih (pos + 1) p h
      exact ⟨by omega, h2⟩

theorem lowWait_of_high (line : ℕ → Bool) :
    ∀ (d pos : ℕ), line (pos + d) = true → ∃ p, lowWait (d + 1) line pos = some p := by
  intro d
  induction d with
  | zero =>
    intro pos h
    rw [Nat.add_zero] at h
    exact ⟨pos, by simp [lowWait, h]⟩
  | succ d ih =>
    intro pos h
    by_cases hl : line pos
    · exact ⟨pos, by simp [lowWait, hl]⟩
    · obtain ⟨p, hp⟩ := ih (pos + 1) (by rw [show pos + 1 + d = pos + (d + 1) from by omega]; exact h)
      refine ⟨p, ?_⟩
      simp only [lowWait, if_neg hl]
      exact hp

/-- C9: the high-phase wait always terminates — fuel 256, the cap's worth
of polls, suffices on every line trace — while the low-phase wait (and
hence `next_bit` as a whole) terminates exactly when the line eventually
reads high: with any sufficient fuel when it does, with no fuel at all
when it never does. -/
theorem sampler_termination (line : ℕ → Bool) (pos : ℕ) :
    ((highWaitAux line 256 pos 0).isSome) ∧
    ((∃ fuel p, lowWait fuel line pos = some p) ↔ ∃ n, pos ≤ n ∧ line n = true) ∧
    ((∃ fuel r, next_bit line fuel pos = some r) ↔ ∃ n, pos ≤ n ∧ line n = true) := by
  have hhigh : ∀ q, (highWaitAux line 256 q 0).isSome :=
    fun q => highWaitAux_isSome line 256 0 (by omega) (by omega) q
  have hlow : (∃ fuel p, lowWait fuel line pos = some p) ↔ ∃ n, pos ≤ n ∧ line n = true := by
    constructor
    · rintro ⟨fuel, p, hp⟩
      obtain ⟨h1, h2⟩ := lowWait_some line fuel pos p hp
      exact ⟨p, h1, h2⟩
    · rintro ⟨n, hn, hline⟩
      obtain ⟨p, hp⟩ := lowWait_of_high line (n - pos) pos
        (by rw [show pos + (n - pos) = n from by omega]; exact hline)
      exact ⟨n - pos + 1, p, hp⟩
  refine ⟨hhigh pos, hlow, ?_, ?_⟩
  · rintro ⟨fuel, r, hr⟩
    simp only [next_bit] at hr
    rcases hlw : lowWait fuel line pos with _ | p
    · rw [hlw] at hr
      exact absurd hr (by simp)
    · obtain ⟨h1, h2⟩ := lowWait_some line fuel pos p hlw
      exact ⟨p, h1, h2⟩
  · intro hex
    obtain ⟨fuel, p, hp⟩ := hlow.mpr hex
    obtain ⟨⟨tries, p'⟩, hh⟩ := Option.isSome_iff_exists.mp (hhigh (p + 1))
    exact ⟨fuel, (classify tries, tries, p'), by simp [next_bit, hp, hh]⟩

/-- C3 as stated is false: on the always-high line the high-phase wait does
abort at the cap, but the `uint8_t` post-increment in
`if(tries++ == 255) break;` wraps 255 to 0, so the returned count is 0,
not 255. -/
theorem cap_count_claim_false :
    ¬ ∀ (line : ℕ → Bool) (pos : ℕ),
        (∀ i, i < pos + 256 → pos ≤ i → line i = true) →
        ∃ p', highWaitAux line 256 pos 0 = some (255, p') := by
  intro hclaim
  obtain ⟨p', hp⟩ := hclaim (fun _ => true) 0 (fun i _ _ => rfl)
  have hv : highWaitAux (fun _ => true) 256 0 0 = some (0, 256) :=
    highWait_cap 256 0 (fun _ => true) 0 (by omega) (by omega) (fun i _ _ => rfl)
  rw [hv] at hp
  simp [Prod.ext_iff] at hp

/-- C3 (amended): whenever the line stays high for the cap's worth of
polling iterations, the sampler aborts the high-phase wait after exactly
256 polls, and the PulseSample count it returns is 0 — the 8-bit counter's
post-increment wraps past 255 at the cap — which the classifier then maps
to bit 0. -/
theorem cap_aborts_returning_zero (line : ℕ → Bool) (pos : ℕ)
    (hline : ∀ i, i < pos + 256 → pos ≤ i → line i = true) :
    highWaitAux line 256 pos 0 = some (0, pos + 256) ∧ classify 0 = 0 :=
  ⟨highWait_cap 256 0 line pos (by omega) (by omega) hline, by decide⟩

theorem cap_aborts_returning_zero_witness :
    (∀ i, i < 0 + 256 → 0 ≤ i → (fun _ : ℕ => true) i = true) ∧
    (highWaitAux (fun _ => true) 256 0 0 = some (0, 0 + 256) ∧ classify 0 = 0) :=
  ⟨fun i _ _ => rfl, cap_aborts_returning_zero (fun _ => true) 0 (fun i _ _ => rfl)⟩

theorem debug_trace_overflow_witness :
    (initDebug.tryCount < 256) ∧
    ((read_therm_debug (fun _ => 0) initDebug).2.writes.length = initDebug.writes.length + 44 ∧
      TRIES_B_SIZE < 44 ∧
      (read_therm_debug (fun _ => 0) initDebug).2.tryCount = (initDebug.tryCount + 44) % 256 ∧
      TRIES_B_SIZE ∈ (read_therm_debug (fun _ => 0) initDebug).2.writes) :=
  ⟨by decide, debug_trace_overflow (fun _ => 0) initDebug (by decide)⟩

/-- C2 is violated by the code: therm.c:134 compares the four-byte sum with
the checksum byte in promoted `int` arithmetic, with no mod-256
truncation, so the flag is 1 exactly when the untruncated sum equals the
checksum byte.  On the spec's own scenario — buckets 0x01 0x90 0x00 0xC8
0x59, whose sum 0x159 reduces to 0x59 modulo 256 — the mod-256 checksum
matches, yet the code reports validity 0. -/
theorem checksum_no_wraparound :
    (∀ counts : ℕ → ℕ, (read_therm counts).checksum = 1 ↔
      thermBits counts 0 + thermBits counts 1 + thermBits counts 2 + thermBits counts 3
        = thermBits counts 4) ∧
    thermBits c2counts 0 = 0x01 ∧ thermBits c2counts 1 = 0x90 ∧
    thermBits c2counts 2 = 0x00 ∧ thermBits c2counts 3 = 0xC8 ∧
    thermBits c2counts 4 = 0x59 ∧
    (0x01 + 0x90 + 0x00 + 0xC8) % 256 = 0x59 ∧
    (read_therm c2counts).checksum = 0 := by
  refine ⟨?_, by decide, by decide, by decide, by decide, by decide, by decide, by decide⟩
  intro counts
  show (if thermBits counts 0 + thermBits counts 1 + thermBits counts 2 + thermBits counts 3
      = thermBits counts 4 then 1 else 0) = 1 ↔ _
  by_cases h : thermBits counts 0 + thermBits counts 1 + thermBits counts 2 + thermBits counts 3
      = thermBits counts 4
  · simp [h]
  · simp [h]

/-- C7: a checksum mismatch is surfaced purely as data: whenever the
validity comparison fails, the transaction still completes and the full
reading is returned — humidity and temperature packed from the first four
buckets — with the validity flag set to 0; there is no failure path. -/
theorem mismatch_surfaced_as_data (counts : ℕ → ℕ)
    (hmis : thermBits counts 0 + thermBits counts 1 + thermBits counts 2 + thermBits counts 3
      ≠ thermBits counts 4) :
    read_therm counts =
      { humidity := 256 * thermBits counts 0 + thermBits counts 1
        temperature := 256 * thermBits counts 2 + thermBits counts 3
        checksum := 0 } := by
  have hp := read_therm_field_packing counts
  have hc : (read_therm counts).checksum = 0 := by
    show (if thermBits counts 0 + thermBits counts 1 + thermBits counts 2 + thermBits counts 3
        = thermBits counts 4 then 1 else 0) = 0
    rw [if_neg hmis]
  calc read_therm counts
      = ⟨(read_therm counts).temperature, (read_therm counts).humidity,
          (read_therm counts).checksum⟩ := rfl
    _ = _ := by rw [hp.2.1, hp.2.2.2, hc]

theorem mismatch_surfaced_as_data_witness :
    (thermBits c7counts 0 + thermBits c7counts 1 + thermBits c7counts 2 + thermBits c7counts 3
      ≠ thermBits c7counts 4) ∧
    read_therm c7counts =
      { humidity := 256 * thermBits c7counts 0 + thermBits c7counts 1
        temperature := 256 * thermBits c7counts 2 + thermBits c7counts 3
        checksum := 0 } :=
  ⟨by decide, mismatch_surfaced_as_data c7counts (by decide)⟩

end RHT03
